import Mathlib

/-!
# Verification of the Minesweeper AI inference engine (`minesweeper.py`)

A shallow embedding of the `Sentence` and `MinesweeperAI` classes of the
repository's `minesweeper.py`, together with theorems settling the frozen
claims about the knowledge-based inference engine.

Modelling conventions:
* a board cell `(i, j)` is a pair of integers (Python `int`s are unbounded);
* a Python `set` of cells is a `Finset Cell`;
* a `Sentence` object is a structure of a `Finset Cell` and an integer count
  (counts may go negative under the source's unguarded subtractions);
* the `while`/`for` loops of `MinesweeperAI.knowledge_update` are embedded
  with index-passing recursion on an explicit fuel, mirroring Python's
  index-based iteration over a list that is mutated (elements assigned or
  removed by value) while being iterated;
* `list.remove(x)` is `List.erase` (first occurrence equal by value), and
  membership tests `x in list` are value-equality membership, exactly as in
  Python where `Sentence.__eq__` compares cell-sets and counts.
-/

abbrev Cell : Type := ℤ × ℤ

/-- The `Sentence` class: a set of board cells and a count of how many of
them are mines.  `__eq__` is structural equality on both fields. -/
structure Sentence where
  cells : Finset Cell
  count : ℤ
deriving DecidableEq

/-- `Sentence.known_mines`: returns `self.cells` if
`len(self.cells) == self.count and self.count != 0`, else the empty set. -/
def Sentence.known_mines (s : Sentence) : Finset Cell :=
  if (s.cells.card : ℤ) = s.count ∧ s.count ≠ 0 then s.cells else ∅

/-- `Sentence.known_safes`: returns `self.cells` if `self.count == 0`,
else the empty set. -/
def Sentence.known_safes (s : Sentence) : Finset Cell :=
  if s.count = 0 then s.cells else ∅

/-- `Sentence.mark_mine`: if the cell is in the sentence, remove it and
decrement the count; otherwise do nothing. -/
def Sentence.mark_mine (s : Sentence) (c : Cell) : Sentence :=
  if c ∈ s.cells then ⟨s.cells.erase c, s.count - 1⟩ else s

/-- `Sentence.mark_safe`: if the cell is in the sentence, remove it; the
count is unchanged. -/
def Sentence.mark_safe (s : Sentence) (c : Cell) : Sentence :=
  if c ∈ s.cells then ⟨s.cells.erase c, s.count⟩ else s

/-- `if x in knowledge and len(x.cells) == 0: knowledge.remove(x)` —
the guarded removal used in the degenerate branch of `knowledge_update`.
Python's `list.remove` deletes the first element equal by value. -/
def removeEmpty (l : List Sentence) (v : Sentence) : List Sentence :=
  if v ∈ l ∧ v.cells = ∅ then l.erase v else l

/-- The body of the doubly nested pair loop of `knowledge_update`, acting on
the pair `(i, j)` where `v` is the value of `i`, `w` the value of `j`, and
`w` sits at index `q` of the current list.  Returns the updated list and
whether the subset-elimination mutation fired (which clears `breaker`). -/
def stepBody (v w : Sentence) (l : List Sentence) (q : ℕ) : List Sentence × Bool :=
  if v.cells ≠ ∅ ∧ w.cells ≠ ∅ then
    if v.cells ⊂ w.cells then
      (l.set q ⟨w.cells \ v.cells, w.count - v.count⟩, true)
    else (l, false)
  else
    (removeEmpty (removeEmpty l v) w, false)

/-- The inner `for j in self.knowledge` loop: Python iterates by index over
the current (possibly shrinking) list; the loop variable `i` keeps the value
`v` it had when read.  `f` is fuel; `l.length - q` fuel always suffices. -/
def innerLoopF : ℕ → Sentence → List Sentence → ℕ → Bool → List Sentence × Bool
  | 0, _, l, _, br => (l, br)
  | f + 1, v, l, q, br =>
    if h : q < l.length then
      innerLoopF f v (stepBody v (l.get ⟨q, h⟩) l q).1 (q + 1)
        (br && !(stepBody v (l.get ⟨q, h⟩) l q).2)
    else (l, br)

/-- The outer `for i in self.knowledge` loop, likewise by index. -/
def outerLoopF : ℕ → List Sentence → ℕ → Bool → List Sentence × Bool
  | 0, l, _, br => (l, br)
  | f + 1, l, p, br =>
    if h : p < l.length then
      outerLoopF f (innerLoopF (l.length) (l.get ⟨p, h⟩) l 0 br).1 (p + 1)
        (innerLoopF (l.length) (l.get ⟨p, h⟩) l 0 br).2
    else (l, br)

/-- One iteration of the `while True` loop of `knowledge_update`: a full
pass over all ordered pairs of sentences, starting with `breaker = True`. -/
def onePass (l : List Sentence) : List Sentence × Bool :=
  outerLoopF l.length l 0 true

/-- Termination measure for the `while True` loop: list length plus the
total number of cells over all sentences.  Every subset-elimination mutation
and every removal strictly decreases it. -/
def measureKB (l : List Sentence) : ℕ :=
  l.length + (l.map (fun s => s.cells.card)).sum

/-- The `while True` loop of `knowledge_update`, with fuel: run passes until
one leaves `breaker` true; `none` on fuel exhaustion. -/
def kuFuel : ℕ → List Sentence → Option (List Sentence)
  | 0, _ => none
  | f + 1, l =>
    if (onePass l).2 then some (onePass l).1 else kuFuel f (onePass l).1

/-- `MinesweeperAI.knowledge_update`, as a function of the knowledge list
(the only state it reads or writes).  Fuel `measureKB l + 1` always
suffices (`kuFuel_sufficient`). -/
def kuList (l : List Sentence) : List Sentence :=
  (kuFuel (measureKB l + 1) l).getD l

/-- The `MinesweeperAI` state: board dimensions, the cells already played,
the cells known to be mines, the cells known to be safe, and the list of
sentences. -/
structure MinesweeperAI where
  height : ℤ
  width : ℤ
  moves_made : Finset Cell
  mines : Finset Cell
  safes : Finset Cell
  knowledge : List Sentence
deriving DecidableEq

/-- The initial `MinesweeperAI` state. -/
def MinesweeperAI.init (h w : ℤ) : MinesweeperAI :=
  ⟨h, w, ∅, ∅, ∅, []⟩

/-- `MinesweeperAI.knowledge_update` as a state transformer: it only
touches `self.knowledge`. -/
def MinesweeperAI.knowledge_update (ai : MinesweeperAI) : MinesweeperAI :=
  { ai with knowledge := kuList ai.knowledge }

/-- `MinesweeperAI.mark_mine`: add the cell to `self.mines` and call
`Sentence.mark_mine` on every sentence in the knowledge list. -/
def MinesweeperAI.mark_mine (ai : MinesweeperAI) (c : Cell) : MinesweeperAI :=
  { ai with mines := insert c ai.mines,
            knowledge := ai.knowledge.map (fun s => s.mark_mine c) }

/-- `MinesweeperAI.mark_safe`: add the cell to `self.safes` and call
`Sentence.mark_safe` on every sentence in the knowledge list. -/
def MinesweeperAI.mark_safe (ai : MinesweeperAI) (c : Cell) : MinesweeperAI :=
  { ai with safes := insert c ai.safes,
            knowledge := ai.knowledge.map (fun s => s.mark_safe c) }

/-- The `nearby_cells` set built inside `add_knowledge`: all in-bounds cells
within one row and one column of `cell`, excluding `cell` itself. -/
def nearbyCells (h w : ℤ) (cell : Cell) : Finset Cell :=
  ((Finset.Icc (cell.1 - 1) (cell.1 + 1)) ×ˢ (Finset.Icc (cell.2 - 1) (cell.2 + 1))).filter
    (fun p => 0 ≤ p.1 ∧ p.1 < h ∧ 0 ≤ p.2 ∧ p.2 < w ∧ p ≠ cell)

/-- The final loop of `add_knowledge`:
`for sentence in self.knowledge: self.safes |= sentence.known_safes();
self.mines |= sentence.known_mines()`, as a fold producing the new
`(safes, mines)` pair. -/
def extractKnown (l : List Sentence) (sm : Finset Cell × Finset Cell) :
    Finset Cell × Finset Cell :=
  l.foldl (fun sm s => (sm.1 ∪ s.known_safes, sm.2 ∪ s.known_mines)) sm

/-- `MinesweeperAI.add_knowledge`: record the move, mark the opened cell
safe, build the sentence of unresolved neighbors, run the fixpoint if it is
non-empty, then extract known safes and mines from every sentence. -/
def MinesweeperAI.add_knowledge (ai : MinesweeperAI) (cell : Cell) (count : ℤ) :
    MinesweeperAI :=
  let ai1 : MinesweeperAI := { ai with moves_made := insert cell ai.moves_made }
  let ai2 : MinesweeperAI := ai1.mark_safe cell
  let nb : Finset Cell := nearbyCells ai2.height ai2.width cell
  let nearby_unknown : Finset Cell := ((nb \ ai2.moves_made) \ ai2.mines) \ ai2.safes
  let nearby_unknown_count : ℤ := count - ((nb ∩ ai2.mines).card : ℤ)
  let ai3 : MinesweeperAI :=
    if nearby_unknown ≠ ∅ then
      MinesweeperAI.knowledge_update
        { ai2 with knowledge := ai2.knowledge ++ [⟨nearby_unknown, nearby_unknown_count⟩] }
    else ai2
  let sm := extractKnown ai3.knowledge (ai3.safes, ai3.mines)
  { ai3 with safes := sm.1, mines := sm.2 }

/-- A total order on cells, standing in for CPython's (unspecified) hash
iteration order over a `set` of cells. -/
def cellOrd (a b : Cell) : Prop := a.1 < b.1 ∨ (a.1 = b.1 ∧ a.2 ≤ b.2)

instance : DecidableRel cellOrd := fun a b => by unfold cellOrd; infer_instance

instance : IsTrans Cell cellOrd := ⟨by
  intro a b c h1 h2
  rcases h1 with h1 | ⟨h1, h1b⟩ <;> rcases h2 with h2 | ⟨h2, h2b⟩ <;> unfold cellOrd <;> omega⟩

instance : IsAntisymm Cell cellOrd := ⟨by
  intro a b h1 h2
  have h3 : a.1 = b.1 ∧ a.2 = b.2 := by
    rcases h1 with h1 | ⟨h1, h1b⟩ <;> rcases h2 with h2 | ⟨h2, h2b⟩ <;> omega
  exact Prod.ext h3.1 h3.2⟩

instance : IsTotal Cell cellOrd := ⟨by intro a b; unfold cellOrd; omega⟩

/-- Ordered insertion of a cell into a list (used to realize one concrete
iteration order over a Python `set` of cells). -/
def insertCell (c : Cell) : List Cell → List Cell
  | [] => [c]
  | x :: xs => if cellOrd c x then c :: x :: xs else x :: insertCell c xs

theorem insertCell_comm (a b : Cell) : ∀ l : List Cell,
    insertCell a (insertCell b l) = insertCell b (insertCell a l) := by
  intro l
  induction l with
  | nil =>
    by_cases hab : cellOrd a b <;> by_cases hba : cellOrd b a
    · have h : a = b := antisymm hab hba
      subst h; rfl
    · simp [insertCell, hab, hba]
    · simp [insertCell, hab, hba]
    · exact absurd (total_of cellOrd a b) (by simp [hab, hba])
  | cons x xs ih =>
    by_cases hax : cellOrd a x <;> by_cases hbx : cellOrd b x
    · by_cases hab : cellOrd a b <;> by_cases hba : cellOrd b a
      · have h : a = b := antisymm hab hba
        subst h; rfl
      · simp [insertCell, hax, hbx, hab, hba]
      · simp [insertCell, hax, hbx, hab, hba]
      · exact absurd (total_of cellOrd a b) (by simp [hab, hba])
    · have hxb : cellOrd x b := (total_of cellOrd b x).resolve_left hbx
      have hab : cellOrd a b := Trans.trans hax hxb
      have hba : ¬cellOrd b a := fun h => hbx (Trans.trans h hax)
      simp [insertCell, hax, hbx, hab, hba]
    · have hxa : cellOrd x a := (total_of cellOrd a x).resolve_left hax
      have hba : cellOrd b a := Trans.trans hbx hxa
      have hab : ¬cellOrd a b := fun h => hax (Trans.trans h hbx)
      simp [insertCell, hax, hbx, hab, hba]
    · simp [insertCell, hax, hbx, ih]

instance : LeftCommutative insertCell := ⟨fun a b l => insertCell_comm a b l⟩

/-- One concrete iteration order over a finite set of cells: its elements
in `cellOrd`-sorted order.  (Python iterates a `set` in an unspecified
order; the engine's contract must not depend on which.) -/
def iterList (s : Finset Cell) : List Cell :=
  Multiset.foldr insertCell [] s.val

/-- `MinesweeperAI.make_safe_move`: return the first cell of `self.safes`
(in iteration order) that is not in `self.moves_made` and is in
`self.safes`; `None` if there is none. -/
def MinesweeperAI.make_safe_move (ai : MinesweeperAI) : Option Cell :=
  (iterList ai.safes).find? (fun m => decide (m ∉ ai.moves_made ∧ m ∈ ai.safes))

/-! ## Basic properties of the loop embedding -/

theorem removeEmpty_sublist (l : List Sentence) (v : Sentence) :
    (removeEmpty l v).Sublist l := by
  unfold removeEmpty
  split
  · exact List.erase_sublist _ _
  · exact List.Sublist.refl l

theorem stepBody_sublist_or_set (v w : Sentence) (l : List Sentence) (q : ℕ) :
    (stepBody v w l q).1 = l.set q ⟨w.cells \ v.cells, w.count - v.count⟩ ∨
      (stepBody v w l q).1.Sublist l := by
  unfold stepBody
  split
  · split
    · exact Or.inl rfl
    · exact Or.inr (List.Sublist.refl l)
  · exact Or.inr (((removeEmpty_sublist _ _).trans (removeEmpty_sublist _ _)))

theorem stepBody_length_le (v w : Sentence) (l : List Sentence) (q : ℕ) :
    (stepBody v w l q).1.length ≤ l.length := by
  rcases stepBody_sublist_or_set v w l q with h | h
  · rw [h, List.length_set]
  · exact h.length_le

theorem innerLoopF_length_le :
    ∀ (f : ℕ) (v : Sentence) (l : List Sentence) (q : ℕ) (br : Bool),
      (innerLoopF f v l q br).1.length ≤ l.length := by
  intro f
  induction f with
  | zero => intro v l q br; exact le_refl _
  | succ f ih =>
    intro v l q br
    by_cases hq : q < l.length
    · simp only [innerLoopF, dif_pos hq]
      exact le_trans (ih _ _ _ _) (stepBody_length_le _ _ _ _)
    · simp only [innerLoopF, dif_neg hq]
      exact le_refl _

theorem innerLoopF_congr :
    ∀ (f1 f2 : ℕ) (v : Sentence) (l : List Sentence) (q : ℕ) (br : Bool),
      l.length - q ≤ f1 → l.length - q ≤ f2 →
      innerLoopF f1 v l q br = innerLoopF f2 v l q br := by
  intro f1
  induction f1 with
  | zero =>
    intro f2 v l q br h1 h2
    have hq : ¬ q < l.length := by omega
    cases f2 with
    | zero => rfl
    | succ f2 => simp only [innerLoopF, dif_neg hq]
  | succ f1 ih =>
    intro f2 v l q br h1 h2
    cases f2 with
    | zero =>
      have hq : ¬ q < l.length := by omega
      simp only [innerLoopF, dif_neg hq]
    | succ f2 =>
      by_cases hq : q < l.length
      · simp only [innerLoopF, dif_pos hq]
        apply ih
        · have := stepBody_length_le v (l.get ⟨q, hq⟩) l q; omega
        · have := stepBody_length_le v (l.get ⟨q, hq⟩) l q; omega
      · simp only [innerLoopF, dif_neg hq]

theorem outerLoopF_length_le :
    ∀ (f : ℕ) (l : List Sentence) (p : ℕ) (br : Bool),
      (outerLoopF f l p br).1.length ≤ l.length := by
  intro f
  induction f with
  | zero => intro l p br; exact le_refl _
  | succ f ih =>
    intro l p br
    by_cases hp : p < l.length
    · simp only [outerLoopF, dif_pos hp]
      exact le_trans (ih _ _ _) (innerLoopF_length_le _ _ _ _ _)
    · simp only [outerLoopF, dif_neg hp]
      exact le_refl _

/-! ## The termination measure -/

theorem measureKB_nil : measureKB [] = 0 := rfl

theorem measureKB_cons (s : Sentence) (l : List Sentence) :
    measureKB (s :: l) = s.cells.card + 1 + measureKB l := by
  simp only [measureKB, List.length_cons, List.map_cons, List.sum_cons]
  omega

theorem measureKB_sublist : ∀ {l1 l2 : List Sentence}, l1.Sublist l2 →
    measureKB l1 ≤ measureKB l2 := by
  intro l1 l2 h
  induction h with
  | slnil => exact le_refl _
  | cons a h ih => rw [measureKB_cons]; omega
  | cons₂ a h ih => rw [measureKB_cons, measureKB_cons]; omega

theorem measureKB_set_le :
    ∀ (l : List Sentence) (q : ℕ) (h : q < l.length) (x : Sentence),
      x.cells.card ≤ (l.get ⟨q, h⟩).cells.card →
      measureKB (l.set q x) ≤ measureKB l := by
  intro l
  induction l with
  | nil => intro q h x hx; exact absurd h (by simp)
  | cons y ys ih =>
    intro q h x hx
    cases q with
    | zero =>
      simp only [List.get] at hx
      simp only [List.set, measureKB_cons]
      omega
    | succ q =>
      simp only [List.get] at hx
      simp only [List.set, measureKB_cons]
      have := ih q (by simpa using h) x hx
      omega

theorem measureKB_set_lt :
    ∀ (l : List Sentence) (q : ℕ) (h : q < l.length) (x : Sentence),
      x.cells.card < (l.get ⟨q, h⟩).cells.card →
      measureKB (l.set q x) < measureKB l := by
  intro l
  induction l with
  | nil => intro q h x hx; exact absurd h (by simp)
  | cons y ys ih =>
    intro q h x hx
    cases q with
    | zero =>
      simp only [List.get] at hx
      simp only [List.set, measureKB_cons]
      omega
    | succ q =>
      simp only [List.get] at hx
      simp only [List.set, measureKB_cons]
      have := ih q (by simpa using h) x hx
      omega

theorem stepBody_measure_le (v : Sentence) (l : List Sentence) (q : ℕ)
    (hq : q < l.length) :
    measureKB (stepBody v (l.get ⟨q, hq⟩) l q).1 ≤ measureKB l := by
  rcases stepBody_sublist_or_set v (l.get ⟨q, hq⟩) l q with h | h
  · rw [h]
    exact measureKB_set_le l q hq _ (Finset.card_le_card (Finset.sdiff_subset))
  · exact measureKB_sublist h

theorem stepBody_fired_measure_lt (v : Sentence) (l : List Sentence) (q : ℕ)
    (hq : q < l.length) (hfired : (stepBody v (l.get ⟨q, hq⟩) l q).2 = true) :
    measureKB (stepBody v (l.get ⟨q, hq⟩) l q).1 < measureKB l := by
  unfold stepBody at hfired ⊢
  by_cases h1 : v.cells ≠ ∅ ∧ (l.get ⟨q, hq⟩).cells ≠ ∅
  · simp only [if_pos h1] at hfired ⊢
    by_cases h2 : v.cells ⊂ (l.get ⟨q, hq⟩).cells
    · simp only [if_pos h2]
      apply measureKB_set_lt
      have hsub : v.cells ⊆ (l.get ⟨q, hq⟩).cells := h2.subset
      have hpos : 0 < v.cells.card :=
        Finset.card_pos.2 (Finset.nonempty_iff_ne_empty.2 h1.1)
      have := Finset.card_sdiff hsub
      have hle := Finset.card_le_card hsub
      simp only [this]
      omega
    · simp only [if_neg h2] at hfired
      exact Bool.noConfusion hfired
  · simp only [if_neg h1] at hfired
    exact Bool.noConfusion hfired

theorem innerLoopF_measure :
    ∀ (f : ℕ) (v : Sentence) (l : List Sentence) (q : ℕ) (br : Bool),
      measureKB (innerLoopF f v l q br).1 ≤ measureKB l ∧
      ((innerLoopF f v l q br).2 = false →
        br = false ∨ measureKB (innerLoopF f v l q br).1 < measureKB l) := by
  intro f
  induction f with
  | zero =>
    intro v l q br
    exact ⟨le_refl _, fun h => Or.inl h⟩
  | succ f ih =>
    intro v l q br
    by_cases hq : q < l.length
    · simp only [innerLoopF, dif_pos hq]
      obtain ⟨ih1, ih2⟩ := ih v (stepBody v (l.get ⟨q, hq⟩) l q).1 (q + 1)
        (br && !(stepBody v (l.get ⟨q, hq⟩) l q).2)
      have hle := stepBody_measure_le v l q hq
      refine ⟨le_trans ih1 hle, fun hsnd => ?_⟩
      rcases ih2 hsnd with h | h
      · rcases Bool.and_eq_false_iff.1 h with h | h
        · exact Or.inl h
        · have hfired : (stepBody v (l.get ⟨q, hq⟩) l q).2 = true := by
            cases hv : (stepBody v (l.get ⟨q, hq⟩) l q).2
            · rw [hv] at h; simp at h
            · rfl
          exact Or.inr (lt_of_le_of_lt ih1 (stepBody_fired_measure_lt v l q hq hfired))
      · exact Or.inr (lt_of_lt_of_le h hle)
    · simp only [innerLoopF, dif_neg hq]
      exact ⟨le_refl _, fun h => Or.inl h⟩

theorem outerLoopF_measure :
    ∀ (f : ℕ) (l : List Sentence) (p : ℕ) (br : Bool),
      measureKB (outerLoopF f l p br).1 ≤ measureKB l ∧
      ((outerLoopF f l p br).2 = false →
        br = false ∨ measureKB (outerLoopF f l p br).1 < measureKB l) := by
  intro f
  induction f with
  | zero =>
    intro l p br
    exact ⟨le_refl _, fun h => Or.inl h⟩
  | succ f ih =>
    intro l p br
    by_cases hp : p < l.length
    · simp only [outerLoopF, dif_pos hp]
      obtain ⟨ih1, ih2⟩ := ih (innerLoopF l.length (l.get ⟨p, hp⟩) l 0 br).1 (p + 1)
        (innerLoopF l.length (l.get ⟨p, hp⟩) l 0 br).2
      obtain ⟨in1, in2⟩ := innerLoopF_measure l.length (l.get ⟨p, hp⟩) l 0 br
      refine ⟨le_trans ih1 in1, fun hsnd => ?_⟩
      rcases ih2 hsnd with h | h
      · rcases in2 h with h2 | h2
        · exact Or.inl h2
        · exact Or.inr (lt_of_le_of_lt ih1 h2)
      · exact Or.inr (lt_of_lt_of_le h in1)
    · simp only [outerLoopF, dif_neg hp]
      exact ⟨le_refl _, fun h => Or.inl h⟩

theorem onePass_measure_le (l : List Sentence) :
    measureKB (onePass l).1 ≤ measureKB l :=
  (outerLoopF_measure l.length l 0 true).1

theorem onePass_measure_lt (l : List Sentence) (h : (onePass l).2 = false) :
    measureKB (onePass l).1 < measureKB l := by
  rcases (outerLoopF_measure l.length l 0 true).2 h with h2 | h2
  · exact absurd h2 (by simp)
  · exact h2

/-! ## Fuel adequacy for the `while True` loop -/

theorem kuFuel_sufficient : ∀ (f : ℕ) (l : List Sentence), measureKB l < f →
    ∃ out, kuFuel f l = some out := by
  intro f
  induction f with
  | zero => intro l h; omega
  | succ f ih =>
    intro l h
    by_cases hb : (onePass l).2
    · exact ⟨(onePass l).1, by simp [kuFuel, hb]⟩
    · have hlt := onePass_measure_lt l (by simpa using hb)
      obtain ⟨out, hout⟩ := ih (onePass l).1 (by omega)
      exact ⟨out, by simp [kuFuel, hb, hout]⟩

theorem kuFuel_congr : ∀ (f1 f2 : ℕ) (l : List Sentence),
    measureKB l < f1 → measureKB l < f2 → kuFuel f1 l = kuFuel f2 l := by
  intro f1
  induction f1 with
  | zero => intro f2 l h1 h2; omega
  | succ f1 ih =>
    intro f2 l h1 h2
    cases f2 with
    | zero => omega
    | succ f2 =>
      by_cases hb : (onePass l).2
      · simp [kuFuel, hb]
      · have hlt := onePass_measure_lt l (by simpa using hb)
        simp only [kuFuel, if_neg hb]
        exact ih f2 (onePass l).1 (by omega) (by omega)

/-- The unfolding (fixpoint) equation of `knowledge_update`'s `while True`
loop: run one full pass; if `breaker` survived, stop, else repeat. -/
theorem kuList_eq (l : List Sentence) :
    kuList l = if (onePass l).2 then (onePass l).1 else kuList (onePass l).1 := by
  by_cases hb : (onePass l).2
  · simp only [kuList, kuFuel, if_pos hb, Option.getD_some]
  · have hlt := onePass_measure_lt l (by simpa using hb)
    rw [if_neg hb]
    have h1 : kuFuel (measureKB l + 1) l = kuFuel (measureKB l) (onePass l).1 := by
      show (if (onePass l).2 then some (onePass l).1
        else kuFuel (measureKB l) (onePass l).1) = _
      rw [if_neg hb]
    have h2 : kuFuel (measureKB l) (onePass l).1
        = kuFuel (measureKB (onePass l).1 + 1) (onePass l).1 :=
      kuFuel_congr _ _ _ (by omega) (by omega)
    obtain ⟨out, hout⟩ :=
      kuFuel_sufficient (measureKB (onePass l).1 + 1) (onePass l).1 (by omega)
    unfold kuList
    rw [h1, h2, hout]
    rfl

/-! ## Predicates preserved by the fixpoint loop

A property of sentences that holds for the result of a subset elimination
whenever it holds for both operands is preserved by the whole of
`knowledge_update` (removals and guarded erasures only keep existing
sentences). -/

def StablePred (Q : Sentence → Prop) : Prop :=
  ∀ v w : Sentence, Q v → Q w → v.cells ⊂ w.cells →
    Q ⟨w.cells \ v.cells, w.count - v.count⟩

theorem stepBody_all {Q : Sentence → Prop} (hQ : StablePred Q)
    (v : Sentence) (l : List Sentence) (q : ℕ) (hq : q < l.length)
    (hv : Q v) (hl : ∀ s ∈ l, Q s) :
    ∀ s ∈ (stepBody v (l.get ⟨q, hq⟩) l q).1, Q s := by
  intro s hs
  unfold stepBody at hs
  by_cases h1 : v.cells ≠ ∅ ∧ (l.get ⟨q, hq⟩).cells ≠ ∅
  · rw [if_pos h1] at hs
    by_cases h2 : v.cells ⊂ (l.get ⟨q, hq⟩).cells
    · rw [if_pos h2] at hs
      rcases List.mem_or_eq_of_mem_set hs with h | h
      · exact hl s h
      · rw [h]
        exact hQ v _ hv (hl _ (List.get_mem l q hq)) h2
    · rw [if_neg h2] at hs
      exact hl s hs
  · rw [if_neg h1] at hs
    exact hl s (((removeEmpty_sublist _ _).trans (removeEmpty_sublist _ _)).subset hs)

theorem innerLoopF_all {Q : Sentence → Prop} (hQ : StablePred Q) :
    ∀ (f : ℕ) (v : Sentence) (l : List Sentence) (q : ℕ) (br : Bool),
      Q v → (∀ s ∈ l, Q s) → ∀ s ∈ (innerLoopF f v l q br).1, Q s := by
  intro f
  induction f with
  | zero => intro v l q br hv hl; exact hl
  | succ f ih =>
    intro v l q br hv hl
    by_cases hq : q < l.length
    · simp only [innerLoopF, dif_pos hq]
      exact ih v _ (q + 1) _ hv (stepBody_all hQ v l q hq hv hl)
    · simp only [innerLoopF, dif_neg hq]
      exact hl

theorem outerLoopF_all {Q : Sentence → Prop} (hQ : StablePred Q) :
    ∀ (f : ℕ) (l : List Sentence) (p : ℕ) (br : Bool),
      (∀ s ∈ l, Q s) → ∀ s ∈ (outerLoopF f l p br).1, Q s := by
  intro f
  induction f with
  | zero => intro l p br hl; exact hl
  | succ f ih =>
    intro l p br hl
    by_cases hp : p < l.length
    · simp only [outerLoopF, dif_pos hp]
      exact ih _ (p + 1) _
        (innerLoopF_all hQ l.length (l.get ⟨p, hp⟩) l 0 br
          (hl _ (List.get_mem l p hp)) hl)
    · simp only [outerLoopF, dif_neg hp]
      exact hl

theorem onePass_all {Q : Sentence → Prop} (hQ : StablePred Q)
    (l : List Sentence) (hl : ∀ s ∈ l, Q s) : ∀ s ∈ (onePass l).1, Q s :=
  outerLoopF_all hQ l.length l 0 true hl

theorem kuFuel_all {Q : Sentence → Prop} (hQ : StablePred Q) :
    ∀ (f : ℕ) (l out : List Sentence), kuFuel f l = some out →
      (∀ s ∈ l, Q s) → ∀ s ∈ out, Q s := by
  intro f
  induction f with
  | zero => intro l out h hl; exact absurd h (by simp [kuFuel])
  | succ f ih =>
    intro l out h hl
    by_cases hb : (onePass l).2
    · simp only [kuFuel, if_pos hb, Option.some.injEq] at h
      rw [← h]
      exact onePass_all hQ l hl
    · simp only [kuFuel, if_neg hb] at h
      exact ih _ _ h (onePass_all hQ l hl)

theorem kuList_all {Q : Sentence → Prop} (hQ : StablePred Q)
    (l : List Sentence) (hl : ∀ s ∈ l, Q s) : ∀ s ∈ kuList l, Q s := by
  unfold kuList
  cases h : kuFuel (measureKB l + 1) l with
  | none => simpa using hl
  | some out => simpa using kuFuel_all hQ _ l out h hl

theorem stable_cells_pred (P : Cell → Prop) :
    StablePred (fun s => ∀ c ∈ s.cells, P c) := by
  intro v w _ hw _
  intro c hc
  exact hw c (Finset.sdiff_subset hc)

theorem stable_nonempty : StablePred (fun s => s.cells ≠ ∅) := by
  intro v w hv _ hss
  have h : (w.cells \ v.cells).Nonempty :=
    Finset.sdiff_nonempty.2 (fun hsub => hss.2 (by exact hsub))
  exact Finset.nonempty_iff_ne_empty.1 h

/-! ## Claim C4 — termination of `knowledge_update` -/

/-- C4: `MinesweeperAI.knowledge_update` terminates on every knowledge-base
state: the `while True` loop exits within `measureKB l + 1` passes (each
repeating pass strictly shrinks some sentence's cell-set, and removals
strictly shrink the collection), and its result is `kuList l`. -/
theorem knowledge_update_terminates (l : List Sentence) :
    kuFuel (measureKB l + 1) l = some (kuList l) := by
  obtain ⟨out, hout⟩ := kuFuel_sufficient (measureKB l + 1) l (by omega)
  unfold kuList
  rw [hout]
  rfl

/-! ## Claim C7 — `known_mines` / `known_safes` -/

/-- C7: `Sentence.known_mines` returns the whole cell-set exactly when the
count equals the number of cells and is nonzero, else the empty set;
`Sentence.known_safes` returns the whole cell-set exactly when the count is
zero (even for an empty cell-set), else the empty set. -/
theorem known_mines_known_safes_spec (s : Sentence) :
    (((s.cells.card : ℤ) = s.count ∧ s.count ≠ 0) → s.known_mines = s.cells) ∧
    (¬((s.cells.card : ℤ) = s.count ∧ s.count ≠ 0) → s.known_mines = ∅) ∧
    (s.count = 0 → s.known_safes = s.cells) ∧
    (s.count ≠ 0 → s.known_safes = ∅) := by
  refine ⟨fun h => ?_, fun h => ?_, fun h => ?_, fun h => ?_⟩ <;>
    simp [Sentence.known_mines, Sentence.known_safes, h]

/-- Witness for C7 at two concrete sentences, one reporting mines and one
reporting safes. -/
theorem known_mines_known_safes_spec_witness :
    (⟨{((0:ℤ), (0:ℤ))}, 1⟩ : Sentence).known_mines = {((0:ℤ), (0:ℤ))} ∧
    (⟨{((0:ℤ), (0:ℤ))}, 1⟩ : Sentence).known_safes = ∅ ∧
    (⟨{((0:ℤ), (1:ℤ))}, 0⟩ : Sentence).known_safes = {((0:ℤ), (1:ℤ))} ∧
    (⟨{((0:ℤ), (1:ℤ))}, 0⟩ : Sentence).known_mines = ∅ :=
  ⟨(known_mines_known_safes_spec _).1 (by decide),
   (known_mines_known_safes_spec _).2.2.2 (by decide),
   (known_mines_known_safes_spec _).2.2.1 (by decide),
   (known_mines_known_safes_spec _).2.1 (by decide)⟩

/-! ## Claim C10 — frame property of `knowledge_update` -/

/-- C10: `MinesweeperAI.knowledge_update` modifies only the knowledge list:
`moves_made`, `mines`, `safes` (and the board dimensions) are unchanged,
and the knowledge list becomes the fixpoint of the pass loop. -/
theorem knowledge_update_frame (ai : MinesweeperAI) :
    (ai.knowledge_update).moves_made = ai.moves_made ∧
    (ai.knowledge_update).mines = ai.mines ∧
    (ai.knowledge_update).safes = ai.safes ∧
    (ai.knowledge_update).height = ai.height ∧
    (ai.knowledge_update).width = ai.width ∧
    (ai.knowledge_update).knowledge = kuList ai.knowledge :=
  ⟨rfl, rfl, rfl, rfl, rfl, rfl⟩

/-! ## Claim C9 — `make_safe_move` -/

theorem mem_insertCell (c a : Cell) : ∀ l : List Cell,
    c ∈ insertCell a l ↔ c = a ∨ c ∈ l := by
  intro l
  induction l with
  | nil => simp [insertCell]
  | cons x xs ih =>
    by_cases h : cellOrd a x
    · simp [insertCell, h]
    · simp only [insertCell, if_neg h, List.mem_cons, ih]
      tauto

theorem mem_iterList (s : Finset Cell) (c : Cell) : c ∈ iterList s ↔ c ∈ s := by
  have key : ∀ m : Multiset Cell, c ∈ Multiset.foldr insertCell [] m ↔ c ∈ m := by
    intro m
    induction m using Multiset.induction_on with
    | empty => simp
    | cons a m ih => simp [Multiset.foldr_cons, mem_insertCell, ih]
  exact (key s.val).trans Finset.mem_def.symm

/-- C9: `make_safe_move` returns a cell that is known safe and not yet
played whenever one is returned, and returns `None` exactly when every
known-safe cell has already been played.  (The embedding is a pure
function of the state: the source method only reads `self.safes` and
`self.moves_made`.) -/
theorem make_safe_move_spec (ai : MinesweeperAI) :
    (∀ c, ai.make_safe_move = some c → c ∈ ai.safes ∧ c ∉ ai.moves_made) ∧
    (ai.make_safe_move = none ↔ ∀ c ∈ ai.safes, c ∈ ai.moves_made) := by
  constructor
  · intro c hc
    have h1 := List.find?_some hc
    have h2 := List.mem_of_find?_eq_some hc
    have h3 : c ∈ ai.safes := (mem_iterList _ _).1 h2
    simp only [decide_eq_true_eq] at h1
    exact ⟨h3, h1.1⟩
  · unfold MinesweeperAI.make_safe_move
    rw [List.find?_eq_none]
    constructor
    · intro h c hcs
      have h2 := h c ((mem_iterList _ _).2 hcs)
      simp only [decide_eq_true_eq] at h2
      by_contra hcm
      exact h2 ⟨hcm, hcs⟩
    · intro h x hx
      have hxs : x ∈ ai.safes := (mem_iterList _ _).1 hx
      simp only [decide_eq_true_eq]
      intro hcontra
      exact hcontra.1 (h x hxs)

/-- Witness for C9 at a concrete state with one played safe cell and one
unplayed safe cell. -/
theorem make_safe_move_spec_witness :
    ((0:ℤ), (1:ℤ)) ∈
      (⟨2, 2, {((0:ℤ), (0:ℤ))}, ∅, {((0:ℤ), (0:ℤ)), ((0:ℤ), (1:ℤ))}, []⟩ :
        MinesweeperAI).safes ∧
    ((0:ℤ), (1:ℤ)) ∉
      (⟨2, 2, {((0:ℤ), (0:ℤ))}, ∅, {((0:ℤ), (0:ℤ)), ((0:ℤ), (1:ℤ))}, []⟩ :
        MinesweeperAI).moves_made :=
  (make_safe_move_spec _).1 _ (by decide)

/-! ## Structure of `add_knowledge` -/

theorem cell_not_mem_nearbyCells (h w : ℤ) (cell : Cell) :
    cell ∉ nearbyCells h w cell := by
  simp [nearbyCells]

theorem sdiff_insert_not_mem {A B : Finset Cell} {c : Cell} (h : c ∉ A) :
    A \ insert c B = A \ B := by
  ext x
  simp only [Finset.mem_sdiff, Finset.mem_insert]
  constructor
  · rintro ⟨hx, hn⟩
    exact ⟨hx, fun hb => hn (Or.inr hb)⟩
  · rintro ⟨hx, hn⟩
    refine ⟨hx, fun hor => ?_⟩
    rcases hor with rfl | hb
    · exact h hx
    · exact hn hb

/-- The knowledge list produced by `add_knowledge`, in terms of the
pre-call state: the new sentence's cell-set is the in-bounds neighbors
minus `moves_made`, minus `mines`, minus `safes` (the opened cell is not
its own neighbor, so inserting it into `moves_made`/`safes` first changes
nothing), and its count is the reported count minus the number of
already-known-mine neighbors; it is appended and the fixpoint run exactly
when that cell-set is non-empty. -/
theorem add_knowledge_knowledge_eq (ai : MinesweeperAI) (cell : Cell) (count : ℤ) :
    (ai.add_knowledge cell count).knowledge =
      if (((nearbyCells ai.height ai.width cell \ ai.moves_made) \ ai.mines) \ ai.safes) ≠ ∅
      then kuList ((ai.knowledge.map (fun s => s.mark_safe cell)) ++
        [⟨((nearbyCells ai.height ai.width cell \ ai.moves_made) \ ai.mines) \ ai.safes,
          count - ((nearbyCells ai.height ai.width cell ∩ ai.mines).card : ℤ)⟩])
      else ai.knowledge.map (fun s => s.mark_safe cell) := by
  have hnb := cell_not_mem_nearbyCells ai.height ai.width cell
  have h1 : nearbyCells ai.height ai.width cell \ insert cell ai.moves_made
      = nearbyCells ai.height ai.width cell \ ai.moves_made :=
    sdiff_insert_not_mem hnb
  have h2 : ((nearbyCells ai.height ai.width cell \ ai.moves_made) \ ai.mines)
        \ insert cell ai.safes
      = ((nearbyCells ai.height ai.width cell \ ai.moves_made) \ ai.mines) \ ai.safes := by
    apply sdiff_insert_not_mem
    intro hc
    exact hnb (Finset.mem_sdiff.1 (Finset.mem_sdiff.1 hc).1).1
  simp only [MinesweeperAI.add_knowledge, MinesweeperAI.mark_safe,
    MinesweeperAI.knowledge_update, h1, h2]
  split
  · rfl
  · rfl

theorem add_knowledge_fields (ai : MinesweeperAI) (cell : Cell) (count : ℤ) :
    (ai.add_knowledge cell count).height = ai.height ∧
    (ai.add_knowledge cell count).width = ai.width ∧
    (ai.add_knowledge cell count).moves_made = insert cell ai.moves_made ∧
    (ai.add_knowledge cell count).safes =
      (extractKnown (ai.add_knowledge cell count).knowledge
        (insert cell ai.safes, ai.mines)).1 ∧
    (ai.add_knowledge cell count).mines =
      (extractKnown (ai.add_knowledge cell count).knowledge
        (insert cell ai.safes, ai.mines)).2 := by
  simp only [MinesweeperAI.add_knowledge, MinesweeperAI.mark_safe,
    MinesweeperAI.knowledge_update]
  split
  · exact ⟨rfl, rfl, rfl, rfl, rfl⟩
  · exact ⟨rfl, rfl, rfl, rfl, rfl⟩

/-! ## Claim C8 — the sentence built by `add_knowledge` -/

/-- C8: `add_knowledge` builds the new sentence from the in-bounds
neighbors of the opened cell minus `moves_made`, minus known mines, minus
known safes, with count the reported count minus the number of neighbors
already known to be mines; it appends it and runs the fixpoint exactly when
that cell-set is non-empty, and appends nothing when it is empty. -/
theorem add_knowledge_new_sentence_spec (ai : MinesweeperAI) (cell : Cell) (count : ℤ) :
    (ai.add_knowledge cell count).knowledge =
      if (((nearbyCells ai.height ai.width cell \ ai.moves_made) \ ai.mines) \ ai.safes) ≠ ∅
      then kuList ((ai.knowledge.map (fun s => s.mark_safe cell)) ++
        [⟨((nearbyCells ai.height ai.width cell \ ai.moves_made) \ ai.mines) \ ai.safes,
          count - ((nearbyCells ai.height ai.width cell ∩ ai.mines).card : ℤ)⟩])
      else ai.knowledge.map (fun s => s.mark_safe cell) :=
  add_knowledge_knowledge_eq ai cell count

/-! ## Claim C1 — facts extracted by `add_knowledge` are not pushed back

The extraction loop at the end of `add_knowledge` only unions
`known_safes()`/`known_mines()` into `self.safes`/`self.mines`; it never
calls `mark_safe`/`mark_mine` on the remaining sentences, so a sentence may
keep cells that have just become known.  The invariant that does hold is
freshness with respect to the *pre-call* sets and the opened cell. -/

theorem mark_safe_map_fresh (P : Cell → Prop) (cell : Cell)
    (l : List Sentence)
    (hl : ∀ s ∈ l, ∀ c ∈ s.cells, P c) :
    ∀ s ∈ l.map (fun s => s.mark_safe cell), ∀ c ∈ s.cells, P c ∧ c ≠ cell := by
  intro s hs c hc
  obtain ⟨s0, hs0, rfl⟩ := List.mem_map.1 hs
  unfold Sentence.mark_safe at hc
  by_cases hmem : cell ∈ s0.cells
  · rw [if_pos hmem] at hc
    simp only at hc
    exact ⟨hl s0 hs0 c (Finset.mem_of_mem_erase hc), Finset.ne_of_mem_erase hc⟩
  · rw [if_neg hmem] at hc
    exact ⟨hl s0 hs0 c hc, fun hceq => hmem (hceq ▸ hc)⟩

/-- C1 (amended): starting from a state in which no sentence mentions a
cell of `mines`, `safes` or `moves_made`, after `add_knowledge` no sentence
mentions a cell of the *pre-call* `mines`, `safes` or `moves_made`, nor the
opened cell.  (Cells newly added to `safes`/`mines` by the extraction loop
may remain inside sentences — see the counterexample.) -/
theorem add_knowledge_preserves_initial_freshness
    (ai : MinesweeperAI) (cell : Cell) (count : ℤ)
    (hinv : ∀ s ∈ ai.knowledge, ∀ c ∈ s.cells,
      c ∉ ai.mines ∧ c ∉ ai.safes ∧ c ∉ ai.moves_made) :
    ∀ s ∈ (ai.add_knowledge cell count).knowledge, ∀ c ∈ s.cells,
      (c ∉ ai.mines ∧ c ∉ ai.safes ∧ c ∉ ai.moves_made) ∧ c ≠ cell := by
  have hmap := mark_safe_map_fresh
    (fun c => c ∉ ai.mines ∧ c ∉ ai.safes ∧ c ∉ ai.moves_made) cell ai.knowledge hinv
  rw [add_knowledge_knowledge_eq]
  by_cases hne :
      (((nearbyCells ai.height ai.width cell \ ai.moves_made) \ ai.mines) \ ai.safes) ≠ ∅
  · rw [if_pos hne]
    apply kuList_all
      (stable_cells_pred (fun c => (c ∉ ai.mines ∧ c ∉ ai.safes ∧ c ∉ ai.moves_made) ∧ c ≠ cell))
    intro s hs
    rcases List.mem_append.1 hs with h | h
    · exact hmap s h
    · rcases List.mem_singleton.1 h with rfl
      intro c hc
      simp only [Finset.mem_sdiff] at hc
      obtain ⟨⟨⟨hcnb, hcm⟩, hcmi⟩, hcs⟩ := hc
      refine ⟨⟨hcmi, hcs, hcm⟩, fun hceq => ?_⟩
      exact cell_not_mem_nearbyCells ai.height ai.width cell (hceq ▸ hcnb)
  · rw [if_neg hne]
    exact hmap

/-- Witness for C1's amended invariant at a concrete opening on a fresh
2×2 board. -/
theorem add_knowledge_preserves_initial_freshness_witness :
    ((((1:ℤ), (1:ℤ)) ∉ (∅ : Finset Cell) ∧ ((1:ℤ), (1:ℤ)) ∉ (∅ : Finset Cell) ∧
      ((1:ℤ), (1:ℤ)) ∉ (∅ : Finset Cell)) ∧ ((1:ℤ), (1:ℤ)) ≠ ((0:ℤ), (0:ℤ))) :=
  add_knowledge_preserves_initial_freshness
    (⟨2, 2, ∅, ∅, ∅, []⟩ : MinesweeperAI) ((0:ℤ), (0:ℤ)) 1 (by decide)
    ⟨{((0:ℤ), (1:ℤ)), ((1:ℤ), (0:ℤ)), ((1:ℤ), (1:ℤ))}, 1⟩ (by decide)
    ((1:ℤ), (1:ℤ)) (by decide)

/-- The pre-call state of the C1 counterexample: an 8×8 board whose safes
are exactly the 8 neighbors of `(5,5)`, with two sentences that do not
mention any resolved cell. -/
def preC1 : MinesweeperAI :=
  ⟨8, 8, ∅, ∅, nearbyCells 8 8 ((5:ℤ), (5:ℤ)),
    [⟨{((0:ℤ), (0:ℤ)), ((0:ℤ), (1:ℤ))}, 0⟩,
     ⟨{((0:ℤ), (1:ℤ)), ((3:ℤ), (3:ℤ))}, 1⟩]⟩

/-- The invariant of claim C1 on a whole state: no sentence in the
knowledge list mentions a cell of `mines`, `safes` or `moves_made`. -/
def FreshKB (ai : MinesweeperAI) : Prop :=
  ∀ s ∈ ai.knowledge, ∀ c ∈ s.cells,
    c ∉ ai.mines ∧ c ∉ ai.safes ∧ c ∉ ai.moves_made

instance : DecidablePred FreshKB := fun ai => by unfold FreshKB; infer_instance

/-- Counterexample to C1 as stated: `preC1` satisfies the invariant (no
sentence cell lies in `mines`, `safes` or `moves_made`), yet after
`add_knowledge (5,5) 0` the sentence `{(0,1),(3,3)} = 1` is still in the
knowledge list while `(0,1)` has just been added to `safes` by the
extraction loop: extracted facts are *not* pushed back into the remaining
sentences, so the post-state violates the invariant. -/
theorem add_knowledge_stale_facts_counterexample :
    FreshKB preC1 ∧
    (⟨{((0:ℤ), (1:ℤ)), ((3:ℤ), (3:ℤ))}, 1⟩ : Sentence)
      ∈ (preC1.add_knowledge ((5:ℤ), (5:ℤ)) 0).knowledge ∧
    ((0:ℤ), (1:ℤ)) ∈ Sentence.cells ⟨{((0:ℤ), (1:ℤ)), ((3:ℤ), (3:ℤ))}, 1⟩ ∧
    ((0:ℤ), (1:ℤ)) ∈ (preC1.add_knowledge ((5:ℤ), (5:ℤ)) 0).safes ∧
    ¬ FreshKB (preC1.add_knowledge ((5:ℤ), (5:ℤ)) 0) := by
  decide

/-! ## Claim C6 — engine-level `mark_mine`/`mark_safe` preserve freshness -/

/-- A single engine-level mark call, for stating "any sequence of
`mark_mine`/`mark_safe` calls". -/
inductive Mark where
  | mine : Cell → Mark
  | safe : Cell → Mark

def applyMark (ai : MinesweeperAI) : Mark → MinesweeperAI
  | Mark.mine c => ai.mark_mine c
  | Mark.safe c => ai.mark_safe c

def applyMarks (ai : MinesweeperAI) (ms : List Mark) : MinesweeperAI :=
  ms.foldl applyMark ai

theorem mark_mine_fresh_step (ai : MinesweeperAI) (c : Cell)
    (h : ∀ s ∈ ai.knowledge, ∀ x ∈ s.cells, x ∉ ai.mines ∧ x ∉ ai.safes) :
    ∀ s ∈ (ai.mark_mine c).knowledge, ∀ x ∈ s.cells,
      x ∉ (ai.mark_mine c).mines ∧ x ∉ (ai.mark_mine c).safes := by
  intro s hs x hx
  obtain ⟨s0, hs0, rfl⟩ := List.mem_map.1 hs
  unfold Sentence.mark_mine at hx
  by_cases hmem : c ∈ s0.cells
  · rw [if_pos hmem] at hx
    simp only at hx
    have h1 := h s0 hs0 x (Finset.mem_of_mem_erase hx)
    have h2 := Finset.ne_of_mem_erase hx
    exact ⟨by simp [MinesweeperAI.mark_mine, Finset.mem_insert, h2, h1.1], h1.2⟩
  · rw [if_neg hmem] at hx
    have h1 := h s0 hs0 x hx
    have h2 : x ≠ c := fun hxeq => hmem (hxeq ▸ hx)
    exact ⟨by simp [MinesweeperAI.mark_mine, Finset.mem_insert, h2, h1.1], h1.2⟩

theorem mark_safe_fresh_step (ai : MinesweeperAI) (c : Cell)
    (h : ∀ s ∈ ai.knowledge, ∀ x ∈ s.cells, x ∉ ai.mines ∧ x ∉ ai.safes) :
    ∀ s ∈ (ai.mark_safe c).knowledge, ∀ x ∈ s.cells,
      x ∉ (ai.mark_safe c).mines ∧ x ∉ (ai.mark_safe c).safes := by
  intro s hs x hx
  obtain ⟨s0, hs0, rfl⟩ := List.mem_map.1 hs
  unfold Sentence.mark_safe at hx
  by_cases hmem : c ∈ s0.cells
  · rw [if_pos hmem] at hx
    simp only at hx
    have h1 := h s0 hs0 x (Finset.mem_of_mem_erase hx)
    have h2 := Finset.ne_of_mem_erase hx
    exact ⟨h1.1, by simp [MinesweeperAI.mark_safe, Finset.mem_insert, h2, h1.2]⟩
  · rw [if_neg hmem] at hx
    have h1 := h s0 hs0 x hx
    have h2 : x ≠ c := fun hxeq => hmem (hxeq ▸ hx)
    exact ⟨h1.1, by simp [MinesweeperAI.mark_safe, Finset.mem_insert, h2, h1.2]⟩

/-- C6: from a state in which no sentence mentions a cell of `mines` or
`safes`, any sequence of engine-level `mark_mine`/`mark_safe` calls
preserves that invariant; moreover each call adds its cell to the
corresponding known set and removes it from every sentence. -/
theorem mark_sequence_preserves_freshness :
    ∀ (ms : List Mark) (ai : MinesweeperAI),
      (∀ s ∈ ai.knowledge, ∀ x ∈ s.cells, x ∉ ai.mines ∧ x ∉ ai.safes) →
      ((∀ s ∈ (applyMarks ai ms).knowledge, ∀ x ∈ s.cells,
          x ∉ (applyMarks ai ms).mines ∧ x ∉ (applyMarks ai ms).safes) ∧
        (∀ c, c ∈ (ai.mark_mine c).mines ∧
          ∀ s ∈ (ai.mark_mine c).knowledge, c ∉ s.cells) ∧
        (∀ c, c ∈ (ai.mark_safe c).safes ∧
          ∀ s ∈ (ai.mark_safe c).knowledge, c ∉ s.cells)) := by
  have hpercall : ∀ (ai : MinesweeperAI),
      ((∀ c, c ∈ (ai.mark_mine c).mines ∧
        ∀ s ∈ (ai.mark_mine c).knowledge, c ∉ s.cells) ∧
      (∀ c, c ∈ (ai.mark_safe c).safes ∧
        ∀ s ∈ (ai.mark_safe c).knowledge, c ∉ s.cells)) := by
    intro ai
    constructor
    · intro c
      refine ⟨Finset.mem_insert_self c _, fun s hs hc => ?_⟩
      obtain ⟨s0, hs0, rfl⟩ := List.mem_map.1 hs
      unfold Sentence.mark_mine at hc
      by_cases hmem : c ∈ s0.cells
      · rw [if_pos hmem] at hc
        exact Finset.not_mem_erase c s0.cells hc
      · rw [if_neg hmem] at hc
        exact hmem hc
    · intro c
      refine ⟨Finset.mem_insert_self c _, fun s hs hc => ?_⟩
      obtain ⟨s0, hs0, rfl⟩ := List.mem_map.1 hs
      unfold Sentence.mark_safe at hc
      by_cases hmem : c ∈ s0.cells
      · rw [if_pos hmem] at hc
        exact Finset.not_mem_erase c s0.cells hc
      · rw [if_neg hmem] at hc
        exact hmem hc
  intro ms
  induction ms with
  | nil =>
    intro ai hinv
    exact ⟨hinv, hpercall ai⟩
  | cons m ms ih =>
    intro ai hinv
    refine ⟨?_, hpercall ai⟩
    have hstep : ∀ s ∈ (applyMark ai m).knowledge, ∀ x ∈ s.cells,
        x ∉ (applyMark ai m).mines ∧ x ∉ (applyMark ai m).safes := by
      cases m with
      | mine c => exact mark_mine_fresh_step ai c hinv
      | safe c => exact mark_safe_fresh_step ai c hinv
    exact (ih (applyMark ai m) hstep).1

/-- Witness for C6 at a concrete state and one `mark_mine` call. -/
theorem mark_sequence_preserves_freshness_witness :
    ((0:ℤ), (0:ℤ)) ∈
      ((⟨2, 2, ∅, ∅, ∅, [⟨{((0:ℤ), (0:ℤ))}, 1⟩]⟩ : MinesweeperAI).mark_mine
        ((0:ℤ), (0:ℤ))).mines :=
  ((mark_sequence_preserves_freshness []
    (⟨2, 2, ∅, ∅, ∅, [⟨{((0:ℤ), (0:ℤ))}, 1⟩]⟩ : MinesweeperAI) (by decide)).2.1
    ((0:ℤ), (0:ℤ))).1

/-! ## Claim C5 — `mines` and `safes` stay disjoint on consistent runs

Consistency of the inputs is expressed by a ground-truth mine set `M`:
every reported count is the true count of mined neighbors, only true mines
are marked as mines, only true non-mines are marked safe, and only
non-mine cells are opened.  Every sentence the engine ever holds is then
true of `M`, every extracted mine is in `M` and every extracted safe is
outside `M`, so the two sets can never meet. -/

/-- A sentence is true of the mine assignment `M`: exactly `count` of its
cells are in `M`. -/
def TrueS (M : Finset Cell) (s : Sentence) : Prop :=
  ((s.cells ∩ M).card : ℤ) = s.count

theorem stable_TrueS (M : Finset Cell) : StablePred (TrueS M) := by
  intro v w hv hw hss
  unfold TrueS at hv hw ⊢
  have hsub : v.cells ⊆ w.cells := hss.subset
  have hint : v.cells ∩ M ⊆ w.cells ∩ M :=
    Finset.inter_subset_inter hsub (Finset.Subset.refl M)
  have hset : (w.cells \ v.cells) ∩ M = (w.cells ∩ M) \ (v.cells ∩ M) := by
    ext x
    simp only [Finset.mem_inter, Finset.mem_sdiff]
    constructor
    · rintro ⟨⟨hxw, hxv⟩, hxM⟩
      exact ⟨⟨hxw, hxM⟩, fun hx2 => hxv hx2.1⟩
    · rintro ⟨⟨hxw, hxM⟩, hxn⟩
      exact ⟨⟨hxw, fun hxv => hxn ⟨hxv, hxM⟩⟩, hxM⟩
  simp only
  rw [hset, Finset.card_sdiff hint, Nat.cast_sub (Finset.card_le_card hint), hv, hw]

theorem TrueS_mark_mine {M : Finset Cell} {s : Sentence} {c : Cell}
    (h : TrueS M s) (hc : c ∈ M) : TrueS M (s.mark_mine c) := by
  unfold TrueS at h ⊢
  unfold Sentence.mark_mine
  by_cases hmem : c ∈ s.cells
  · rw [if_pos hmem]
    simp only
    have h1 : s.cells.erase c ∩ M = (s.cells ∩ M).erase c := by
      ext x
      simp only [Finset.mem_inter, Finset.mem_erase]
      tauto
    have h2 : c ∈ s.cells ∩ M := Finset.mem_inter.2 ⟨hmem, hc⟩
    have h3 : 1 ≤ (s.cells ∩ M).card := Finset.card_pos.2 ⟨c, h2⟩
    rw [h1, Finset.card_erase_of_mem h2, Nat.cast_sub h3, h]
    rfl
  · rw [if_neg hmem]
    exact h

theorem TrueS_mark_safe {M : Finset Cell} {s : Sentence} {c : Cell}
    (h : TrueS M s) (hc : c ∉ M) : TrueS M (s.mark_safe c) := by
  unfold TrueS at h ⊢
  unfold Sentence.mark_safe
  by_cases hmem : c ∈ s.cells
  · rw [if_pos hmem]
    simp only
    have h1 : s.cells.erase c ∩ M = s.cells ∩ M := by
      ext x
      simp only [Finset.mem_inter, Finset.mem_erase]
      constructor
      · rintro ⟨⟨hx1, hx2⟩, hx3⟩
        exact ⟨hx2, hx3⟩
      · rintro ⟨hx1, hx2⟩
        exact ⟨⟨fun hxc => hc (hxc ▸ hx2), hx1⟩, hx2⟩
    rw [h1, h]
  · rw [if_neg hmem]
    exact h

/-- Everything `known_safes` reports is outside `M`, and everything
`known_mines` reports is inside `M`, for a sentence true of `M`. -/
theorem known_sound {M : Finset Cell} {s : Sentence} (h : TrueS M s) :
    (∀ c ∈ s.known_safes, c ∉ M) ∧ s.known_mines ⊆ M := by
  unfold TrueS at h
  constructor
  · intro c hc hcM
    unfold Sentence.known_safes at hc
    by_cases hcount : s.count = 0
    · rw [if_pos hcount] at hc
      have hcard : (s.cells ∩ M).card = 0 := by
        rw [hcount] at h
        exact_mod_cast h
      have hempty : s.cells ∩ M = ∅ := Finset.card_eq_zero.1 hcard
      have hmem : c ∈ s.cells ∩ M := Finset.mem_inter.2 ⟨hc, hcM⟩
      rw [hempty] at hmem
      exact Finset.not_mem_empty c hmem
    · rw [if_neg hcount] at hc
      exact Finset.not_mem_empty c hc
  · intro c hc
    unfold Sentence.known_mines at hc
    by_cases hcond : (s.cells.card : ℤ) = s.count ∧ s.count ≠ 0
    · rw [if_pos hcond] at hc
      have hcard : (s.cells ∩ M).card = s.cells.card := by
        have h2 : ((s.cells ∩ M).card : ℤ) = (s.cells.card : ℤ) := by
          rw [h, hcond.1]
        exact_mod_cast h2
      have heq : s.cells ∩ M = s.cells :=
        Finset.eq_of_subset_of_card_le Finset.inter_subset_left (le_of_eq hcard.symm)
      have : c ∈ s.cells ∩ M := heq.symm ▸ hc
      exact (Finset.mem_inter.1 this).2
    · rw [if_neg hcond] at hc
      exact absurd hc (Finset.not_mem_empty c)

theorem extractKnown_sound (M : Finset Cell) :
    ∀ (l : List Sentence) (sm : Finset Cell × Finset Cell),
      (∀ s ∈ l, TrueS M s) → (∀ c ∈ sm.1, c ∉ M) → sm.2 ⊆ M →
      (∀ c ∈ (extractKnown l sm).1, c ∉ M) ∧ (extractKnown l sm).2 ⊆ M := by
  intro l
  induction l with
  | nil => intro sm _ h2 h3; exact ⟨h2, h3⟩
  | cons s l ih =>
    intro sm hl h2 h3
    have hs := known_sound (hl s (List.mem_cons_self s l))
    show (∀ c ∈ (extractKnown l (sm.1 ∪ s.known_safes, sm.2 ∪ s.known_mines)).1, c ∉ M) ∧ _
    apply ih
    · intro t ht
      exact hl t (List.mem_cons_of_mem s ht)
    · intro c hc
      rcases Finset.mem_union.1 hc with h | h
      · exact h2 c h
      · exact hs.1 c h
    · intro c hc
      rcases Finset.mem_union.1 hc with h | h
      · exact h3 h
      · exact hs.2 h

theorem extractKnown_grows :
    ∀ (l : List Sentence) (sm : Finset Cell × Finset Cell),
      sm.1 ⊆ (extractKnown l sm).1 := by
  intro l
  induction l with
  | nil => intro sm; exact Finset.Subset.refl _
  | cons s l ih =>
    intro sm
    exact Finset.Subset.trans Finset.subset_union_left
      (ih (sm.1 ∪ s.known_safes, sm.2 ∪ s.known_mines))

/-- The soundness invariant with respect to ground truth `M`: every
sentence is true of `M`, all recorded mines are real mines, no recorded
safe is a mine, and every played cell has been recorded safe. -/
def SoundState (M : Finset Cell) (ai : MinesweeperAI) : Prop :=
  (∀ s ∈ ai.knowledge, TrueS M s) ∧ ai.mines ⊆ M ∧
    (∀ c ∈ ai.safes, c ∉ M) ∧ ai.moves_made ⊆ ai.safes

/-- States reachable from the initial state by consistent in-game inputs:
`add_knowledge` is fed a non-mine cell and the true count of its mined
neighbors, `mark_mine` a real mine, `mark_safe` a real non-mine. -/
inductive Reaches (M : Finset Cell) : MinesweeperAI → Prop where
  | init : ∀ h w, Reaches M (MinesweeperAI.init h w)
  | add : ∀ (ai : MinesweeperAI) (cell : Cell), Reaches M ai → cell ∉ M →
      Reaches M (ai.add_knowledge cell
        (((nearbyCells ai.height ai.width cell ∩ M).card : ℤ)))
  | mine : ∀ (ai : MinesweeperAI) (c : Cell), Reaches M ai → c ∈ M →
      Reaches M (ai.mark_mine c)
  | safe : ∀ (ai : MinesweeperAI) (c : Cell), Reaches M ai → c ∉ M →
      Reaches M (ai.mark_safe c)

theorem sound_mark_mine {M : Finset Cell} {ai : MinesweeperAI} {c : Cell}
    (hS : SoundState M ai) (hc : c ∈ M) : SoundState M (ai.mark_mine c) := by
  obtain ⟨hknow, hmines, hsafes, hmoves⟩ := hS
  refine ⟨?_, ?_, hsafes, hmoves⟩
  · intro s hs
    obtain ⟨s0, hs0, rfl⟩ := List.mem_map.1 hs
    exact TrueS_mark_mine (hknow s0 hs0) hc
  · intro x hx
    rcases Finset.mem_insert.1 hx with rfl | hx2
    · exact hc
    · exact hmines hx2

theorem sound_mark_safe {M : Finset Cell} {ai : MinesweeperAI} {c : Cell}
    (hS : SoundState M ai) (hc : c ∉ M) : SoundState M (ai.mark_safe c) := by
  obtain ⟨hknow, hmines, hsafes, hmoves⟩ := hS
  refine ⟨?_, hmines, ?_, ?_⟩
  · intro s hs
    obtain ⟨s0, hs0, rfl⟩ := List.mem_map.1 hs
    exact TrueS_mark_safe (hknow s0 hs0) hc
  · intro x hx
    rcases Finset.mem_insert.1 hx with rfl | hx2
    · exact hc
    · exact hsafes x hx2
  · exact Finset.Subset.trans hmoves (Finset.subset_insert c ai.safes)

theorem sound_add_knowledge {M : Finset Cell} {ai : MinesweeperAI} {cell : Cell}
    (hS : SoundState M ai) (hcell : cell ∉ M) :
    SoundState M (ai.add_knowledge cell
      (((nearbyCells ai.height ai.width cell ∩ M).card : ℤ))) := by
  obtain ⟨hknow, hmines, hsafes, hmoves⟩ := hS
  have hmapped : ∀ s ∈ ai.knowledge.map (fun s => s.mark_safe cell), TrueS M s := by
    intro s hs
    obtain ⟨s0, hs0, rfl⟩ := List.mem_map.1 hs
    exact TrueS_mark_safe (hknow s0 hs0) hcell
  have hKtrue : ∀ s ∈ (ai.add_knowledge cell
      (((nearbyCells ai.height ai.width cell ∩ M).card : ℤ))).knowledge, TrueS M s := by
    rw [add_knowledge_knowledge_eq]
    by_cases hne : (((nearbyCells ai.height ai.width cell \ ai.moves_made) \ ai.mines)
        \ ai.safes) ≠ ∅
    · rw [if_pos hne]
      apply kuList_all (stable_TrueS M)
      intro s hs
      rcases List.mem_append.1 hs with h | h
      · exact hmapped s h
      · rcases List.mem_singleton.1 h with rfl
        unfold TrueS
        simp only
        have h1 : (((nearbyCells ai.height ai.width cell \ ai.moves_made) \ ai.mines)
              \ ai.safes) ∩ M
            = (nearbyCells ai.height ai.width cell ∩ M)
              \ (nearbyCells ai.height ai.width cell ∩ ai.mines) := by
          ext x
          simp only [Finset.mem_inter, Finset.mem_sdiff]
          constructor
          · rintro ⟨⟨⟨⟨hxnb, hxmv⟩, hxmi⟩, hxsf⟩, hxM⟩
            exact ⟨⟨hxnb, hxM⟩, fun hx2 => hxmi hx2.2⟩
          · rintro ⟨⟨hxnb, hxM⟩, hxn⟩
            refine ⟨⟨⟨⟨hxnb, fun hmv => ?_⟩, fun hmi => hxn ⟨hxnb, hmi⟩⟩,
              fun hsf => hsafes x hsf hxM⟩, hxM⟩
            exact hsafes x (hmoves hmv) hxM
        have hsub2 : nearbyCells ai.height ai.width cell ∩ ai.mines
            ⊆ nearbyCells ai.height ai.width cell ∩ M :=
          Finset.inter_subset_inter (Finset.Subset.refl _) hmines
        rw [h1, Finset.card_sdiff hsub2, Nat.cast_sub (Finset.card_le_card hsub2)]
    · rw [if_neg hne]
      exact hmapped
  obtain ⟨hh, hw2, hmm, hsf, hmn⟩ := add_knowledge_fields ai cell
    (((nearbyCells ai.height ai.width cell ∩ M).card : ℤ))
  have hbase1 : ∀ c ∈ insert cell ai.safes, c ∉ M := by
    intro x hx
    rcases Finset.mem_insert.1 hx with rfl | hx2
    · exact hcell
    · exact hsafes x hx2
  have hext := extractKnown_sound M
    ((ai.add_knowledge cell (((nearbyCells ai.height ai.width cell ∩ M).card : ℤ))).knowledge)
    (insert cell ai.safes, ai.mines) hKtrue hbase1 hmines
  refine ⟨hKtrue, ?_, ?_, ?_⟩
  · rw [hmn]
    exact hext.2
  · rw [hsf]
    exact hext.1
  · rw [hmm, hsf]
    have hgrow := extractKnown_grows
      ((ai.add_knowledge cell
        (((nearbyCells ai.height ai.width cell ∩ M).card : ℤ))).knowledge)
      (insert cell ai.safes, ai.mines)
    intro x hx
    apply hgrow
    rcases Finset.mem_insert.1 hx with rfl | hx2
    · exact Finset.mem_insert_self x _
    · exact Finset.mem_insert_of_mem (hmoves hx2)

theorem reaches_sound {M : Finset Cell} {ai : MinesweeperAI}
    (h : Reaches M ai) : SoundState M ai := by
  induction h with
  | init h w =>
    refine ⟨?_, ?_, ?_, Finset.Subset.refl ∅⟩
    · intro s hs
      exact absurd hs (List.not_mem_nil s)
    · intro x hx
      exact absurd hx (Finset.not_mem_empty x)
    · intro x hx
      exact absurd hx (Finset.not_mem_empty x)
  | add ai cell hr hcell ih => exact sound_add_knowledge ih hcell
  | mine ai c hr hc ih => exact sound_mark_mine ih hc
  | safe ai c hr hc ih => exact sound_mark_safe ih hc

/-! ## Claim C5 — disjointness of `mines` and `safes` -/

/-- C5: in every state reachable from the initial state by a sequence of
`add_knowledge`, `mark_mine` and `mark_safe` calls with consistent inputs
(consistency witnessed by a ground-truth mine set `M`), the known-mine and
known-safe sets are disjoint. -/
theorem reachable_mines_safes_disjoint (M : Finset Cell) (ai : MinesweeperAI)
    (h : Reaches M ai) : ai.mines ∩ ai.safes = ∅ := by
  obtain ⟨_, hmines, hsafes, _⟩ := reaches_sound h
  ext x
  simp only [Finset.mem_inter, Finset.not_mem_empty, iff_false]
  rintro ⟨hxm, hxs⟩
  exact hsafes x hxs (hmines hxm)

/-- Witness for C5: a state reached by one consistent `mark_mine` call. -/
theorem reachable_mines_safes_disjoint_witness :
    ((MinesweeperAI.init 2 2).mark_mine ((0:ℤ), (0:ℤ))).mines ∩
      ((MinesweeperAI.init 2 2).mark_mine ((0:ℤ), (0:ℤ))).safes = ∅ :=
  reachable_mines_safes_disjoint {((0:ℤ), (0:ℤ))} _
    (Reaches.mine _ _ (Reaches.init 2 2) (by decide))

/-! ## Claim C2 — idempotence of `knowledge_update`

When the list contains an empty-celled sentence, its removal during a pass
shifts the iteration indices and later sentences are skipped, so one run of
`knowledge_update` can stop short of the real fixpoint (counterexample
below).  When every sentence has a non-empty cell-set no removal can ever
happen, the final pass really visits every pair unchanged, and the run is
idempotent. -/

theorem innerLoopF_breaker_mono :
    ∀ (f : ℕ) (v : Sentence) (l : List Sentence) (q : ℕ) (br : Bool),
      (innerLoopF f v l q br).2 = true → br = true := by
  intro f
  induction f with
  | zero => intro v l q br h; exact h
  | succ f ih =>
    intro v l q br h
    by_cases hq : q < l.length
    · simp only [innerLoopF, dif_pos hq] at h
      have h2 := ih _ _ _ _ h
      simp only [Bool.and_eq_true] at h2
      exact h2.1
    · simp only [innerLoopF, dif_neg hq] at h
      exact h

theorem outerLoopF_breaker_mono :
    ∀ (f : ℕ) (l : List Sentence) (p : ℕ) (br : Bool),
      (outerLoopF f l p br).2 = true → br = true := by
  intro f
  induction f with
  | zero => intro l p br h; exact h
  | succ f ih =>
    intro l p br h
    by_cases hp : p < l.length
    · simp only [outerLoopF, dif_pos hp] at h
      exact innerLoopF_breaker_mono _ _ _ _ _ (ih _ _ _ h)
    · simp only [outerLoopF, dif_neg hp] at h
      exact h

theorem stepBody_nonempty (v w : Sentence) (l : List Sentence) (q : ℕ)
    (hv : v.cells ≠ ∅) (hw : w.cells ≠ ∅) :
    stepBody v w l q =
      if v.cells ⊂ w.cells
      then (l.set q ⟨w.cells \ v.cells, w.count - v.count⟩, true)
      else (l, false) := by
  unfold stepBody
  rw [if_pos ⟨hv, hw⟩]

theorem innerLoopF_no_change :
    ∀ (f : ℕ) (v : Sentence) (l : List Sentence) (q : ℕ) (br : Bool),
      (∀ s ∈ l, s.cells ≠ ∅) → v.cells ≠ ∅ →
      (innerLoopF f v l q br).2 = true → (innerLoopF f v l q br).1 = l := by
  intro f
  induction f with
  | zero => intro v l q br _ _ _; rfl
  | succ f ih =>
    intro v l q br hl hv hsnd
    by_cases hq : q < l.length
    · have hw : (l.get ⟨q, hq⟩).cells ≠ ∅ := hl _ (List.get_mem l q hq)
      by_cases hss : v.cells ⊂ (l.get ⟨q, hq⟩).cells
      · exfalso
        simp only [innerLoopF, dif_pos hq, stepBody_nonempty v _ l q hv hw,
          if_pos hss] at hsnd
        have hbr := innerLoopF_breaker_mono _ _ _ _ _ hsnd
        simp at hbr
      · simp only [innerLoopF, dif_pos hq, stepBody_nonempty v _ l q hv hw,
          if_neg hss] at hsnd ⊢
        simp only [Bool.not_false, Bool.and_true] at hsnd ⊢
        exact ih v l (q + 1) br hl hv hsnd
    · simp only [innerLoopF, dif_neg hq]

theorem outerLoopF_no_change :
    ∀ (f : ℕ) (l : List Sentence) (p : ℕ) (br : Bool),
      (∀ s ∈ l, s.cells ≠ ∅) →
      (outerLoopF f l p br).2 = true → (outerLoopF f l p br).1 = l := by
  intro f
  induction f with
  | zero => intro l p br _ _; rfl
  | succ f ih =>
    intro l p br hl hsnd
    by_cases hp : p < l.length
    · have hv : (l.get ⟨p, hp⟩).cells ≠ ∅ := hl _ (List.get_mem l p hp)
      simp only [outerLoopF, dif_pos hp] at hsnd ⊢
      have hr2 : (innerLoopF l.length (l.get ⟨p, hp⟩) l 0 br).2 = true :=
        outerLoopF_breaker_mono _ _ _ _ hsnd
      have hr1 : (innerLoopF l.length (l.get ⟨p, hp⟩) l 0 br).1 = l :=
        innerLoopF_no_change _ _ _ _ _ hl hv hr2
      rw [hr1] at hsnd ⊢
      exact ih l (p + 1) _ hl hsnd
    · simp only [outerLoopF, dif_neg hp]

theorem onePass_no_change (l : List Sentence) (hl : ∀ s ∈ l, s.cells ≠ ∅)
    (h : (onePass l).2 = true) : (onePass l).1 = l :=
  outerLoopF_no_change l.length l 0 true hl h

theorem kuList_fixpoint_aux :
    ∀ (n : ℕ) (l : List Sentence), measureKB l ≤ n → (∀ s ∈ l, s.cells ≠ ∅) →
      onePass (kuList l) = (kuList l, true) := by
  intro n
  induction n with
  | zero =>
    intro l hn hl
    by_cases hb : (onePass l).2
    · have h1 := onePass_no_change l hl hb
      rw [kuList_eq, if_pos hb, h1]
      exact Prod.ext h1 hb
    · have := onePass_measure_lt l (by simpa using hb)
      omega
  | succ n ih =>
    intro l hn hl
    by_cases hb : (onePass l).2
    · have h1 := onePass_no_change l hl hb
      rw [kuList_eq, if_pos hb, h1]
      exact Prod.ext h1 hb
    · have hlt := onePass_measure_lt l (by simpa using hb)
      have hl2 : ∀ s ∈ (onePass l).1, s.cells ≠ ∅ := onePass_all stable_nonempty l hl
      rw [kuList_eq, if_neg hb]
      exact ih (onePass l).1 (by omega) hl2

/-- C2 (amended): on a knowledge list in which every sentence has a
non-empty cell-set, running `knowledge_update` twice in succession gives
the same list as running it once. -/
theorem knowledge_update_idempotent_on_nonempty (l : List Sentence)
    (hl : ∀ s ∈ l, s.cells ≠ ∅) : kuList (kuList l) = kuList l := by
  have hfix := kuList_fixpoint_aux (measureKB l) l (le_refl _) hl
  rw [kuList_eq (kuList l), hfix]
  simp

/-- Witness for C2's amended idempotence at a concrete one-sentence list. -/
theorem knowledge_update_idempotent_on_nonempty_witness :
    kuList (kuList [⟨{((0:ℤ), (0:ℤ))}, 1⟩]) = kuList [⟨{((0:ℤ), (0:ℤ))}, 1⟩] :=
  knowledge_update_idempotent_on_nonempty [⟨{((0:ℤ), (0:ℤ))}, 1⟩] (by decide)

/-- Counterexample to C2 as stated: with an empty-celled sentence in front,
the removal during the final pass shifts the loop index past the sentence
`{(0,0)} = 1`, so the strict-subset pair is never visited; the first run
returns `[{(0,0)} = 1, {(0,0),(0,1)} = 1]` and a second run still has a
subset elimination to perform. -/
theorem knowledge_update_not_idempotent_counterexample :
    ¬ (kuList (kuList [⟨∅, 0⟩, ⟨{((0:ℤ), (0:ℤ))}, 1⟩,
        ⟨{((0:ℤ), (0:ℤ)), ((0:ℤ), (1:ℤ))}, 1⟩])
      = kuList [⟨∅, 0⟩, ⟨{((0:ℤ), (0:ℤ))}, 1⟩,
        ⟨{((0:ℤ), (0:ℤ)), ((0:ℤ), (1:ℤ))}, 1⟩]) := by
  decide

/-! ## Claim C3 — order-(in)dependence of the fixpoint

The extraction result is *not* invariant under permutations of the
knowledge list in general (counterexample below, with all cell-sets
non-empty).  For knowledge bases of at most two sentences it is. -/

theorem onePass_pair_empty_left (x y : Sentence) (hx : x.cells = ∅)
    (hy : y.cells ≠ ∅) : onePass [x, y] = ([y], true) := by
  have hxy : x ≠ y := fun h => hy (h ▸ hx)
  have hyx : y ≠ x := hxy.symm
  simp [onePass, outerLoopF, innerLoopF, stepBody, removeEmpty, hx, hy, hxy, hyx,
    List.erase_cons]

theorem onePass_pair_empty_right (x y : Sentence) (hx : x.cells ≠ ∅)
    (hy : y.cells = ∅) : onePass [x, y] = ([x], true) := by
  have hxy : x ≠ y := fun h => hx (h ▸ hy)
  have hyx : y ≠ x := hxy.symm
  have hxx : ¬ x.cells ⊂ x.cells := ssubset_irrefl x.cells
  simp [onePass, outerLoopF, innerLoopF, stepBody, removeEmpty, hx, hy, hxy, hyx, hxx,
    List.erase_cons]

theorem onePass_pair_both_empty_eq (x : Sentence) (hx : x.cells = ∅) :
    onePass [x, x] = ([], true) := by
  simp [onePass, outerLoopF, innerLoopF, stepBody, removeEmpty, hx, List.erase_cons]

theorem onePass_pair_both_empty_ne (x y : Sentence) (hx : x.cells = ∅)
    (hy : y.cells = ∅) (hxy : x ≠ y) : onePass [x, y] = ([y], true) := by
  have hyx : y ≠ x := hxy.symm
  simp [onePass, outerLoopF, innerLoopF, stepBody, removeEmpty, hx, hy, hxy, hyx,
    List.erase_cons]

theorem onePass_pair_no_sub (x y : Sentence) (hx : x.cells ≠ ∅) (hy : y.cells ≠ ∅)
    (h1 : ¬ x.cells ⊂ y.cells) (h2 : ¬ y.cells ⊂ x.cells) :
    onePass [x, y] = ([x, y], true) := by
  have hxx : ¬ x.cells ⊂ x.cells := ssubset_irrefl x.cells
  have hyy : ¬ y.cells ⊂ y.cells := ssubset_irrefl y.cells
  simp [onePass, outerLoopF, innerLoopF, stepBody, removeEmpty, hx, hy, h1, h2, hxx, hyy]

theorem onePass_pair_sub (x y : Sentence) (hx : x.cells ≠ ∅) (hy : y.cells ≠ ∅)
    (h1 : x.cells ⊂ y.cells) :
    onePass [x, y] = ([x, ⟨y.cells \ x.cells, y.count - x.count⟩], false) := by
  have hd : (y.cells \ x.cells) ≠ ∅ := by
    have h5 := Finset.sdiff_nonempty.2 (fun hsub => h1.2 hsub)
    exact Finset.nonempty_iff_ne_empty.1 h5
  have h2 : ¬ y.cells ⊂ x.cells := fun h => (ssubset_asymm h1) h
  have h3 : ¬ x.cells ⊂ y.cells \ x.cells := by
    intro h
    obtain ⟨c, hc⟩ := Finset.nonempty_iff_ne_empty.2 hx
    have h5 := h.subset hc
    exact (Finset.mem_sdiff.1 h5).2 hc
  have h4 : ¬ (y.cells \ x.cells) ⊂ x.cells := by
    intro h
    obtain ⟨c, hc⟩ := Finset.nonempty_iff_ne_empty.2 hd
    have h5 := h.subset hc
    exact (Finset.mem_sdiff.1 hc).2 h5
  have hxx : ¬ x.cells ⊂ x.cells := ssubset_irrefl x.cells
  have hyy : ¬ y.cells ⊂ y.cells := ssubset_irrefl y.cells
  have hdd : ¬ (y.cells \ x.cells) ⊂ (y.cells \ x.cells) := ssubset_irrefl _
  simp [onePass, outerLoopF, innerLoopF, stepBody, removeEmpty, hx, hy, h1, h2, h3, h4, hd,
    hxx, hyy, hdd]

theorem onePass_pair_sub_rev (x y : Sentence) (hx : x.cells ≠ ∅) (hy : y.cells ≠ ∅)
    (h1 : x.cells ⊂ y.cells) :
    onePass [y, x] = ([⟨y.cells \ x.cells, y.count - x.count⟩, x], false) := by
  have hd : (y.cells \ x.cells) ≠ ∅ := by
    have h5 := Finset.sdiff_nonempty.2 (fun hsub => h1.2 hsub)
    exact Finset.nonempty_iff_ne_empty.1 h5
  have h2 : ¬ y.cells ⊂ x.cells := fun h => (ssubset_asymm h1) h
  have h3 : ¬ x.cells ⊂ y.cells \ x.cells := by
    intro h
    obtain ⟨c, hc⟩ := Finset.nonempty_iff_ne_empty.2 hx
    have h5 := h.subset hc
    exact (Finset.mem_sdiff.1 h5).2 hc
  have h4 : ¬ (y.cells \ x.cells) ⊂ x.cells := by
    intro h
    obtain ⟨c, hc⟩ := Finset.nonempty_iff_ne_empty.2 hd
    have h5 := h.subset hc
    exact (Finset.mem_sdiff.1 hc).2 h5
  have hxx : ¬ x.cells ⊂ x.cells := ssubset_irrefl x.cells
  have hyy : ¬ y.cells ⊂ y.cells := ssubset_irrefl y.cells
  have hdd : ¬ (y.cells \ x.cells) ⊂ (y.cells \ x.cells) := ssubset_irrefl _
  simp [onePass, outerLoopF, innerLoopF, stepBody, removeEmpty, hx, hy, h1, h2, h3, h4, hd,
    hxx, hyy, hdd]

theorem extractKnown_pair_comm (a b : Sentence) (sm : Finset Cell × Finset Cell) :
    extractKnown [a, b] sm = extractKnown [b, a] sm := by
  unfold extractKnown
  simp only [List.foldl_cons, List.foldl_nil]
  apply Prod.ext
  · show sm.1 ∪ a.known_safes ∪ b.known_safes = sm.1 ∪ b.known_safes ∪ a.known_safes
    exact Finset.union_right_comm sm.1 a.known_safes b.known_safes
  · show sm.2 ∪ a.known_mines ∪ b.known_mines = sm.2 ∪ b.known_mines ∪ a.known_mines
    exact Finset.union_right_comm sm.2 a.known_mines b.known_mines

theorem extractKnown_empty_sentence (s : Sentence) (hs : s.cells = ∅)
    (sm : Finset Cell × Finset Cell) : extractKnown [s] sm = sm := by
  unfold extractKnown Sentence.known_safes Sentence.known_mines
  simp [hs]

/-- C3 (amended): for knowledge bases of at most two sentences the final
extraction is order-independent: running `knowledge_update` followed by the
fact-extraction step gives the same known-safes/known-mines sets for
`[x, y]` and `[y, x]` (for a single sentence or the empty list the
permutation is trivial). -/
theorem knowledge_update_pair_order_independent (x y : Sentence)
    (sm : Finset Cell × Finset Cell) :
    extractKnown (kuList [x, y]) sm = extractKnown (kuList [y, x]) sm := by
  by_cases hx : x.cells = ∅
  · by_cases hy : y.cells = ∅
    · by_cases hxy : x = y
      · rw [hxy]
      · have k1 : kuList [x, y] = [y] := by
          rw [kuList_eq, onePass_pair_both_empty_ne x y hx hy hxy]
          rfl
        have k2 : kuList [y, x] = [x] := by
          rw [kuList_eq, onePass_pair_both_empty_ne y x hy hx (Ne.symm hxy)]
          rfl
        rw [k1, k2, extractKnown_empty_sentence y hy, extractKnown_empty_sentence x hx]
    · have k1 : kuList [x, y] = [y] := by
        rw [kuList_eq, onePass_pair_empty_left x y hx hy]
        rfl
      have k2 : kuList [y, x] = [y] := by
        rw [kuList_eq, onePass_pair_empty_right y x hy hx]
        rfl
      rw [k1, k2]
  · by_cases hy : y.cells = ∅
    · have k1 : kuList [x, y] = [x] := by
        rw [kuList_eq, onePass_pair_empty_right x y hx hy]
        rfl
      have k2 : kuList [y, x] = [x] := by
        rw [kuList_eq, onePass_pair_empty_left y x hy hx]
        rfl
      rw [k1, k2]
    · by_cases h1 : x.cells ⊂ y.cells
      · have hd : (y.cells \ x.cells) ≠ ∅ := by
          have h5 := Finset.sdiff_nonempty.2 (fun hsub => h1.2 hsub)
          exact Finset.nonempty_iff_ne_empty.1 h5
        have h3 : ¬ x.cells ⊂ y.cells \ x.cells := by
          intro h
          obtain ⟨c, hc⟩ := Finset.nonempty_iff_ne_empty.2 hx
          have h5 := h.subset hc
          exact (Finset.mem_sdiff.1 h5).2 hc
        have h4 : ¬ (y.cells \ x.cells) ⊂ x.cells := by
          intro h
          obtain ⟨c, hc⟩ := Finset.nonempty_iff_ne_empty.2 hd
          have h5 := h.subset hc
          exact (Finset.mem_sdiff.1 hc).2 h5
        have k1 : kuList [x, y] = [x, ⟨y.cells \ x.cells, y.count - x.count⟩] := by
          rw [kuList_eq, onePass_pair_sub x y hx hy h1]
          show kuList [x, ⟨y.cells \ x.cells, y.count - x.count⟩] = _
          rw [kuList_eq, onePass_pair_no_sub x _ hx hd h3 h4]
          rfl
        have k2 : kuList [y, x] = [⟨y.cells \ x.cells, y.count - x.count⟩, x] := by
          rw [kuList_eq, onePass_pair_sub_rev x y hx hy h1]
          show kuList [⟨y.cells \ x.cells, y.count - x.count⟩, x] = _
          rw [kuList_eq, onePass_pair_no_sub _ x hd hx h4 h3]
          rfl
        rw [k1, k2]
        exact extractKnown_pair_comm _ _ sm
      · by_cases h2 : y.cells ⊂ x.cells
        · have hd : (x.cells \ y.cells) ≠ ∅ := by
            have h5 := Finset.sdiff_nonempty.2 (fun hsub => h2.2 hsub)
            exact Finset.nonempty_iff_ne_empty.1 h5
          have h3 : ¬ y.cells ⊂ x.cells \ y.cells := by
            intro h
            obtain ⟨c, hc⟩ := Finset.nonempty_iff_ne_empty.2 hy
            have h5 := h.subset hc
            exact (Finset.mem_sdiff.1 h5).2 hc
          have h4 : ¬ (x.cells \ y.cells) ⊂ y.cells := by
            intro h
            obtain ⟨c, hc⟩ := Finset.nonempty_iff_ne_empty.2 hd
            have h5 := h.subset hc
            exact (Finset.mem_sdiff.1 hc).2 h5
          have k1 : kuList [x, y] = [⟨x.cells \ y.cells, x.count - y.count⟩, y] := by
            rw [kuList_eq, onePass_pair_sub_rev y x hy hx h2]
            show kuList [⟨x.cells \ y.cells, x.count - y.count⟩, y] = _
            rw [kuList_eq, onePass_pair_no_sub _ y hd hy h4 h3]
            rfl
          have k2 : kuList [y, x] = [y, ⟨x.cells \ y.cells, x.count - y.count⟩] := by
            rw [kuList_eq, onePass_pair_sub y x hy hx h2]
            show kuList [y, ⟨x.cells \ y.cells, x.count - y.count⟩] = _
            rw [kuList_eq, onePass_pair_no_sub y _ hy hd h3 h4]
            rfl
          rw [k1, k2]
          exact extractKnown_pair_comm _ _ sm
        · have k1 : kuList [x, y] = [x, y] := by
            rw [kuList_eq, onePass_pair_no_sub x y hx hy h1 h2]
            rfl
          have k2 : kuList [y, x] = [y, x] := by
            rw [kuList_eq, onePass_pair_no_sub y x hy hx h2 h1]
            rfl
          rw [k1, k2]
          exact extractKnown_pair_comm _ _ sm

/-- Counterexample to C3 as stated: the three sentences
`{(0,0)} = 0`, `{(0,0),(0,1)} = 2`, `{(0,1)} = 1` (all with non-empty
cell-sets) fed in reversed order produce different known-mines sets:
in one order `{(0,0),(0,1)} = 2` is reduced by `{(0,0)} = 0`, in the other
by `{(0,1)} = 1`, and the two reduced sentences report different mines. -/
theorem knowledge_update_order_dependent_counterexample :
    List.Perm
      [(⟨{((0:ℤ), (0:ℤ))}, 0⟩ : Sentence),
        ⟨{((0:ℤ), (0:ℤ)), ((0:ℤ), (1:ℤ))}, 2⟩, ⟨{((0:ℤ), (1:ℤ))}, 1⟩]
      [⟨{((0:ℤ), (1:ℤ))}, 1⟩, ⟨{((0:ℤ), (0:ℤ)), ((0:ℤ), (1:ℤ))}, 2⟩,
        ⟨{((0:ℤ), (0:ℤ))}, 0⟩] ∧
    ¬ (extractKnown (kuList [(⟨{((0:ℤ), (0:ℤ))}, 0⟩ : Sentence),
          ⟨{((0:ℤ), (0:ℤ)), ((0:ℤ), (1:ℤ))}, 2⟩, ⟨{((0:ℤ), (1:ℤ))}, 1⟩]) (∅, ∅)
        = extractKnown (kuList [(⟨{((0:ℤ), (1:ℤ))}, 1⟩ : Sentence),
          ⟨{((0:ℤ), (0:ℤ)), ((0:ℤ), (1:ℤ))}, 2⟩, ⟨{((0:ℤ), (0:ℤ))}, 0⟩]) (∅, ∅)) := by
  constructor
  · decide
  · decide
